import Mathlib

/-!
Verification of the build-dependency graph engine of the open-ce-builder
repository, as a shallow embedding in Lean 4.

The embedded functions follow the Python source files:
  * `open_ce/conda_utils.py`  — `get_latest_package_info`
  * `open_ce/graph.py`        — `OpenCEGraph.add_node`, `OpenCEGraph.add_edge`
  * `open_ce/utils.py`        — `make_variants`, `generalize_version`

Strings are modelled over ASCII characters (`List Char`); the Python
character classes `\w`, `\d`, `\s` are modelled by their ASCII parts,
which covers all package specifier strings the program handles.
External effects (the `conda search` subprocess) are passed in as an
explicit collaborator function, following the Package Index contract.
-/

namespace OpenCE

/-! ## utils.generalize_version

`generalize_version` first collapses whitespace runs
(`re.sub(r'\s+', ' ', package)`) and then matches
`re.match(r'([\w-]+)([\s=<>]*)(\d[.\d*\w*]*)([=\s]*.*)', package)`.
The four capture groups are name, operator, version and build.  The regex
is sequential, so Python's leftmost-greedy backtracking semantics reduce to
an explicit computation, spelled out in `tryMatch` below. -/

/-- ASCII `\s`: the characters matched by Python's whitespace class. -/
def wsChar (c : Char) : Bool :=
  c = ' ' || c = '\t' || c = '\n' || c = '\r' || c = '\x0b' || c = '\x0c'

/-- ASCII `\w`: letters, digits and underscore. -/
def wordChar (c : Char) : Bool :=
  c.isAlpha || c.isDigit || c = '_'

/-- The class `[\w-]` of the name group. -/
def g1c (c : Char) : Bool := wordChar c || c = '-'

/-- The class `[\s=<>]` of the operator group. -/
def g2c (c : Char) : Bool := wsChar c || c = '=' || c = '<' || c = '>'

/-- The class `[.\d*\w*]` of the version group's tail. -/
def g3c (c : Char) : Bool := c = '.' || c.isDigit || c = '*' || wordChar c

/-- The class `[=\s]` opening the build group. -/
def g4c (c : Char) : Bool := c = '=' || wsChar c

/-- `re.sub(r'\s+', ' ', s)`, one character at a time: the flag records
whether the previous character was inside a whitespace run, so exactly the
first character of every maximal whitespace run becomes a single space and
the rest of the run is dropped. -/
def collapseAux : Bool → List Char → List Char
  | _, [] => []
  | inWs, c :: cs =>
    if wsChar c then
      if inWs then collapseAux true cs else ' ' :: collapseAux true cs
    else c :: collapseAux false cs

/-- `re.sub(r'\s+', ' ', s)`: every maximal run of whitespace becomes a
single space. -/
def collapse (l : List Char) : List Char := collapseAux false l

/-- Every whitespace character of the list is a plain space (an invariant
of collapsed strings). -/
def wsIsSpace (l : List Char) : Bool :=
  l.all (fun c => !(wsChar c) || (c = ' '))

/-- No two adjacent characters of the list are both whitespace (an
invariant of collapsed strings). -/
def noAdjWs : List Char → Bool
  | c :: d :: t => (!(wsChar c) || !(wsChar d)) && noAdjWs (d :: t)
  | _ => true

/-- The build group `([=\s]*.*)`: a greedy run of `[=\s]` followed by a
greedy run of `.` (any character except a newline); characters after a
newline are not captured. -/
def g4parse (l : List Char) : List Char :=
  l.takeWhile g4c ++ (l.dropWhile g4c).takeWhile (fun c => !(c = '\n'))

/-- Splits a list around its rightmost decimal digit, when there is one. -/
def lastDigitSplit : List Char → Option (List Char × Char × List Char)
  | [] => none
  | c :: cs =>
    match lastDigitSplit cs with
    | some (p, d, q) => some (c :: p, d, q)
    | none => if c.isDigit then some ([], c, cs) else none

/-- The backtracking branch of the specifier regex: the name group gives
up characters so that the version group can start at the rightmost digit
strictly inside the name run.  The operator group is then forced empty
(its class is disjoint from the name class), the version group takes that
digit and the maximal `[.\d*\w*]` run, and the build group the remainder
via `g4parse`.  Fails when no digit leaves a non-empty name group. -/
def matchCaseBAux (rest : List Char) :
    Option (List Char × Char × List Char) →
      Option (List Char × List Char × List Char × List Char)
  | some (p, d', q) =>
    if p = [] then none
    else some (p, [], d' :: (q ++ rest).takeWhile g3c,
      g4parse ((q ++ rest).dropWhile g3c))
  | none => none

def matchCaseB (run rest : List Char) :
    Option (List Char × List Char × List Char × List Char) :=
  matchCaseBAux rest (lastDigitSplit run)

/-- The greedy branch of the specifier regex, after the name group took
the whole `[\w-]` run: the third argument is the remainder after the
greedy operator run (`rest.dropWhile g2c`); when it starts with a digit
the match succeeds with the maximal operator and version runs, otherwise
the name group backtracks into `matchCaseB` (shortening the operator run
can never expose a digit, as the operator class holds none). -/
def afterNameAux (run rest : List Char) :
    List Char → Option (List Char × List Char × List Char × List Char)
  | d :: tl =>
    if d.isDigit then
      some (run, rest.takeWhile g2c, d :: tl.takeWhile g3c,
        g4parse (tl.dropWhile g3c))
    else matchCaseB run rest
  | [] => matchCaseB run rest

/-- `re.match(r'([\w-]+)([\s=<>]*)(\d[.\d*\w*]*)([=\s]*.*)', s)`:
Python's leftmost-greedy backtracking, made explicit.  The name group
takes the maximal `[\w-]` run (failing when it is empty), and the rest of
the pattern is matched by `afterNameAux` / `matchCaseB`. -/
def tryMatch (s : List Char) :
    Option (List Char × List Char × List Char × List Char) :=
  if s.takeWhile g1c = [] then none
  else afterNameAux (s.takeWhile g1c) (s.dropWhile g1c)
    ((s.dropWhile g1c).dropWhile g2c)

/-- Python `str.strip()` on ASCII: drop whitespace from both ends. -/
def stripWs (l : List Char) : List Char :=
  ((l.dropWhile wsChar).reverse.dropWhile wsChar).reverse

/-- `version.endswith(".*")`. -/
def endsDotStar (l : List Char) : Bool :=
  match l.reverse with
  | y :: x :: _ => x = '.' && y = '*'
  | _ => false

/-- `version[-1].isdigit()` (false on the empty list; the version group is
never empty). -/
def lastIsDigit (l : List Char) : Bool :=
  match l.reverse with
  | c :: _ => c.isDigit
  | [] => false

/-- `utils.generalize_version`: collapse whitespace, match the specifier
regex, and append `.*` to the version exactly when the version and operator
groups are non-empty, the version does not already end in `.*`, its last
character is a digit, and the stripped operator is `"=="`, `" "` or `""`. -/
def genVerAux (p : List Char) :
    Option (List Char × List Char × List Char × List Char) → List Char
  | none => p
  | some (name, op, ver, bld) =>
    if ver.length > 0 && op.length > 0 then
      if !(endsDotStar ver) && lastIsDigit ver &&
          (stripWs op = ['=', '='] || stripWs op = [' '] || stripWs op = []) then
        name ++ op ++ ver ++ ['.', '*'] ++ bld
      else p
    else p

def generalize_version (package : List Char) : List Char :=
  genVerAux (collapse package) (tryMatch (collapse package))

/-- `generalize_version` on Lean strings, the form used inside
`get_latest_package_info`. -/
def generalize_version_str (s : String) : String :=
  ⟨generalize_version s.toList⟩

/-! ## conda_utils.get_latest_package_info -/

/-- One parsed entry of `conda search --info` output, keeping the fields the
selection loop reads: `version_order` (modelled as a rank in the total order
of versions), `build number` and `timestamp` (0 when absent). -/
structure PackageInfo where
  version : Nat
  build_number : Nat
  timestamp : Nat
deriving DecidableEq

/-- One loop iteration of the selection loop of `get_latest_package_info`:
the current `retval` is kept whenever the candidate's version, build number
or timestamp is strictly below `retval`'s (each `continue` in the source),
otherwise the candidate replaces `retval`. -/
def select_step (retval p : PackageInfo) : PackageInfo :=
  if p.version < retval.version then retval
  else if p.build_number < retval.build_number then retval
  else if p.timestamp < retval.timestamp then retval
  else p

/-- The selection loop of `get_latest_package_info`: starts with
`retval = entries[0]` and folds `select_step` over all entries
(the first entry included, as in the source). `none` when there are
no entries. -/
def select_latest : List PackageInfo → Option PackageInfo
  | [] => none
  | e :: es => some (List.foldl select_step e (e :: es))

/-- Result of one `conda search --info` invocation: the parsed entries
together with the raw standard output that produced them. -/
structure SearchResult where
  entries : List PackageInfo
  std_out : String

/-- An `OpenCEError` as raised by `errors.py`: the numeric error code and
the fully formatted message. -/
structure OpenCEError where
  code : Nat
  message : String
deriving DecidableEq

/-- The formatted message of `Error.CONDA_PACKAGE_INFO`
(code 28 in `errors.py`), with the command and output substituted. -/
def conda_package_info_message (command opt : String) : String :=
  "[OPEN-CE-ERROR]-28 Conda Package Info Failed.\nCommand:\n" ++ command
    ++ "\nOutput:\n" ++ opt

/-- The value returned by `get_latest_package_info`: the empty string for a
virtual package, or the selected package entry. -/
inductive PackageResult where
  | virtualPkg
  | found (info : PackageInfo)
deriving DecidableEq

instance {ε α : Type} [DecidableEq ε] [DecidableEq α] :
    DecidableEq (Except ε α)
  | .ok a, .ok b =>
    if h : a = b then .isTrue (by rw [h])
    else .isFalse (fun hc => by cases hc; exact h rfl)
  | .ok _, .error _ => .isFalse (fun hc => by cases hc)
  | .error _, .ok _ => .isFalse (fun hc => by cases hc)
  | .error e, .error f =>
    if h : e = f then .isTrue (by rw [h])
    else .isFalse (fun hc => by cases hc; exact h rfl)

/-- `package.startswith("__")`: the first two characters are underscores. -/
def starts_with_dunder (s : String) : Bool :=
  match s.toList with
  | x :: y :: _ => x = '_' && y = '_'
  | _ => false

/-- The channel loop of `get_latest_package_info`: for each channel argument
(`some c` for `["--override-channels", "-c", c]`, `none` for the final
default search) run a search, accumulate its raw output, and return the
selected entry of the first search with any entries; when all searches come
back empty, raise `Error.CONDA_PACKAGE_INFO` carrying the command and the
accumulated output. -/
def search_channels (search : Option String → SearchResult) (cmd : String) :
    String → List (Option String) → Except OpenCEError PackageResult
  | acc, [] => .error ⟨28, conda_package_info_message cmd acc⟩
  | acc, ca :: rest =>
    let r := search ca
    match select_latest r.entries with
    | some best => .ok (.found best)
    | none => search_channels search cmd (acc ++ r.std_out) rest

/-- `conda_utils.get_latest_package_info`, with the `conda search`
subprocess supplied as the collaborator `search` (the searched package spec
is fixed for the whole call, so `search` only takes the channel argument).
Virtual packages (leading `"__"`) are skipped before any search; otherwise
the channels are searched in list order followed by the default search. -/
def get_latest_package_info (search : Option String → SearchResult)
    (channels : List String) (pkg : String) : Except OpenCEError PackageResult :=
  if starts_with_dunder pkg then .ok .virtualPkg
  else
    search_channels search ("conda search --info " ++ generalize_version_str pkg) ""
      (channels.map some ++ [none])

/-! ## graph.OpenCEGraph

`OpenCEGraph` wraps `networkx.DiGraph` for node objects "that can be equal
but different": it scans the stored nodes linearly with the nodes' own
equality before delegating, so a node equal to a stored one is never
inserted twice.  The model keeps the stored nodes in insertion order, each
with its attribute dictionary (an insertion-ordered association list, as a
Python dict), and the edges as ordered pairs of stored nodes.  The node
equality `eq` is the node type's `__eq__`, passed explicitly. -/

/-- Python `dict` assignment `d[k] = v`: overwrite in place, else append. -/
def dict_set {V : Type} (d : List (String × V)) (k : String) (v : V) :
    List (String × V) :=
  if d.any (fun kv => kv.1 = k) then
    d.map (fun kv => if kv.1 = k then (k, v) else kv)
  else d ++ [(k, v)]

/-- Python `dict.update`: assign every binding of `upd` into `d` in order. -/
def dict_update {V : Type} (d upd : List (String × V)) : List (String × V) :=
  upd.foldl (fun acc kv => dict_set acc kv.1 kv.2) d

/-- The `OpenCEGraph` state: stored nodes in insertion order with their
attribute dictionaries, and the directed edges. -/
structure OpenCEGraph (Node V : Type) where
  nodes : List (Node × List (String × V))
  edges : List (Node × Node)

/-- Updates the attribute dictionary of the first stored node that the
node equality relates to `n`, as `DiGraph.add_node(existing_node, **attr)`
does for the instance found by the linear scan. -/
def merge_on_first {Node V : Type} (eq : Node → Node → Bool)
    (nodes : List (Node × List (String × V))) (n : Node)
    (attr : List (String × V)) : List (Node × List (String × V)) :=
  match nodes with
  | [] => []
  | p :: rest =>
    if eq p.1 n then (p.1, dict_update p.2 attr) :: rest
    else p :: merge_on_first eq rest n attr

/-- `OpenCEGraph.add_node`: scan the stored nodes for one equal to
`node_for_adding`; when found, merge the attribute updates onto that
instance, otherwise insert the new node with the given attributes. -/
def add_node {Node V : Type} (eq : Node → Node → Bool)
    (g : OpenCEGraph Node V) (n : Node) (attr : List (String × V)) :
    OpenCEGraph Node V :=
  if (g.nodes.find? (fun p => eq p.1 n)).isSome then
    { g with nodes := merge_on_first eq g.nodes n attr }
  else
    { g with nodes := g.nodes ++ [(n, dict_update [] attr)] }

/-- Endpoint resolution inside `OpenCEGraph.add_edge`: the first stored
node equal to `n` when there is one, otherwise `n` inserted fresh (with an
empty attribute dictionary, as `DiGraph.add_node(n)`). -/
def resolve_node {Node V : Type} (eq : Node → Node → Bool)
    (g : OpenCEGraph Node V) (n : Node) : OpenCEGraph Node V × Node :=
  match g.nodes.find? (fun p => eq p.1 n) with
  | some p => (g, p.1)
  | none => ({ g with nodes := g.nodes ++ [(n, [])] }, n)

/-- `OpenCEGraph.add_edge`: resolve `u`, then resolve `v` against the
possibly-extended node list, then insert the edge between the resolved
instances.  Re-adding the same pair of resolved instances overwrites the
stored edge (a `DiGraph` adjacency-dict assignment), so no duplicate edge
is stored. -/
def add_edge {Node V : Type} [DecidableEq Node] (eq : Node → Node → Bool)
    (g : OpenCEGraph Node V) (u v : Node) : OpenCEGraph Node V :=
  let (g1, u') := resolve_node eq g u
  let (g2, v') := resolve_node eq g1 v
  if (u', v') ∈ g2.edges then g2
  else { g2 with edges := g2.edges ++ [(u', v')] }

/-! ## utils.make_variants -/

/-- One variant dictionary built by `make_variants`: keys `python`,
`build_type`, `mpi_type` and, for the `cuda` build type only,
`cudatoolkit`. -/
structure Variant where
  python : String
  build_type : String
  mpi_type : String
  cudatoolkit : Option String
deriving DecidableEq

/-- Modelled from the spec: `inputs.parse_arg_list` is absent from the
sources (only its callers are present); per the spec each axis is "one
value (or comma-list) per axis", so on an already-parsed list of axis
values the parse is the identity, the form `make_variants` consumes. -/
def parse_arg_list (l : List String) : List String := l

/-- `utils.make_variants`: for each build type, the cross product of the
python versions, that build type, and the mpi types — with the
cudatoolkit axis joined in exactly when the build type is `"cuda"` —
iterated with `itertools.product` order (later axes fastest). -/
def make_variants (python_versions build_types mpi_types cuda_versions :
    List String) : List Variant :=
  (parse_arg_list build_types).flatMap (fun b =>
    if b = "cuda" then
      (parse_arg_list python_versions).flatMap (fun p =>
        (parse_arg_list mpi_types).flatMap (fun m =>
          (parse_arg_list cuda_versions).map (fun c =>
            { python := p, build_type := b, mpi_type := m,
              cudatoolkit := some c })))
    else
      (parse_arg_list python_versions).flatMap (fun p =>
        (parse_arg_list mpi_types).map (fun m =>
          { python := p, build_type := b, mpi_type := m,
            cudatoolkit := none })))

/-! ## Helper lemmas -/

theorem select_step_or (r p : PackageInfo) :
    select_step r p = r ∨ select_step r p = p := by
  unfold select_step
  repeat' split
  all_goals simp

theorem foldl_select_step_mem (S : List PackageInfo) :
    ∀ (l : List PackageInfo) (e : PackageInfo), e ∈ S → (∀ x ∈ l, x ∈ S) →
      l.foldl select_step e ∈ S
  | [], e, he, _ => he
  | x :: xs, e, he, hl => by
    rw [List.foldl_cons]
    apply foldl_select_step_mem S xs
    · rcases select_step_or e x with h | h <;> rw [h]
      · exact he
      · exact hl x (List.mem_cons_self x xs)
    · exact fun y hy => hl y (List.mem_cons_of_mem x hy)

theorem select_latest_mem {l : List PackageInfo} {b : PackageInfo}
    (h : select_latest l = some b) : b ∈ l := by
  cases l with
  | nil => simp [select_latest] at h
  | cons e es =>
    simp only [select_latest, Option.some.injEq] at h
    rw [← h]
    exact foldl_select_step_mem (e :: es) (e :: es) e
      (List.mem_cons_self e es) (fun x hx => hx)

theorem select_latest_isSome {l : List PackageInfo} (h : l ≠ []) :
    ∃ b, select_latest l = some b := by
  cases l with
  | nil => exact absurd rfl h
  | cons e es => exact ⟨_, rfl⟩

theorem search_channels_first_hit (search : Option String → SearchResult)
    (cmd : String) :
    ∀ (preL : List (Option String)) (acc : String) (ca : Option String)
      (rest : List (Option String)),
      (∀ x ∈ preL, (search x).entries = []) → (search ca).entries ≠ [] →
      ∃ best, search_channels search cmd acc (preL ++ ca :: rest)
          = .ok (.found best)
        ∧ select_latest (search ca).entries = some best
  | [], acc, ca, rest, _, hca => by
    obtain ⟨best, hbest⟩ := select_latest_isSome hca
    refine ⟨best, ?_, hbest⟩
    simp only [List.nil_append, search_channels, hbest]
  | x :: preL, acc, ca, rest, hpre, hca => by
    have hx : (search x).entries = [] := hpre x (List.mem_cons_self x preL)
    have ih := search_channels_first_hit search cmd preL
      (acc ++ (search x).std_out) ca rest
      (fun y hy => hpre y (List.mem_cons_of_mem x hy)) hca
    obtain ⟨best, h1, h2⟩ := ih
    refine ⟨best, ?_, h2⟩
    simp only [List.cons_append, search_channels, hx]
    exact h1

theorem search_channels_all_empty (search : Option String → SearchResult)
    (cmd : String) :
    ∀ (L : List (Option String)) (acc : String),
      (∀ ca ∈ L, (search ca).entries = []) →
      search_channels search cmd acc L
        = .error ⟨28, conda_package_info_message cmd
            (L.foldl (fun a ca => a ++ (search ca).std_out) acc)⟩
  | [], acc, _ => rfl
  | ca :: L, acc, h => by
    have hca : (search ca).entries = [] := h ca (List.mem_cons_self ca L)
    simp only [search_channels, hca, List.foldl_cons]
    exact search_channels_all_empty search cmd L (acc ++ (search ca).std_out)
      (fun y hy => h y (List.mem_cons_of_mem ca hy))

/-! ## Claim theorems for get_latest_package_info -/

/-- C1: the channels are queried in list order and the result is the
candidate selected from the first channel with at least one match, so a
match on a higher-priority channel is returned regardless of anything a
lower-priority channel (or the default search) holds. -/
theorem get_latest_package_info_first_channel_wins
    (search : Option String → SearchResult) (pre : List String) (c : String)
    (post : List String) (pkg : String)
    (hv : starts_with_dunder pkg = false)
    (hpre : ∀ c' ∈ pre, (search (some c')).entries = [])
    (hc : (search (some c)).entries ≠ []) :
    ∃ best,
      get_latest_package_info search (pre ++ c :: post) pkg
        = .ok (.found best)
      ∧ select_latest (search (some c)).entries = some best
      ∧ best ∈ (search (some c)).entries := by
  have key := search_channels_first_hit search
    ("conda search --info " ++ generalize_version_str pkg)
    (pre.map some) "" (some c) (post.map some ++ [none])
    (by
      intro x hx
      obtain ⟨c', hc', rfl⟩ := List.mem_map.mp hx
      exact hpre c' hc')
    hc
  obtain ⟨best, h1, h2⟩ := key
  refine ⟨best, ?_, h2, select_latest_mem h2⟩
  simp only [get_latest_package_info, hv, Bool.false_eq_true, if_false]
  have harr : (pre ++ c :: post).map some ++ [none]
      = pre.map some ++ some c :: (post.map some ++ [none]) := by
    simp
  rw [harr]
  exact h1

/-- C1 witness: channel `c0` is empty, `c1` holds version 1, `c2` holds
version 9; the result is `c1`'s entry, the lower version. -/
theorem get_latest_package_info_first_channel_wins_witness :
    (∀ c' ∈ ["c0"],
      ((fun ca => if ca = some "c0" then SearchResult.mk [] ""
        else if ca = some "c1" then SearchResult.mk [⟨1, 0, 0⟩] ""
        else SearchResult.mk [⟨9, 9, 9⟩] "") (some c')).entries = [])
    ∧ ((fun ca => if ca = some "c0" then SearchResult.mk [] ""
        else if ca = some "c1" then SearchResult.mk [⟨1, 0, 0⟩] ""
        else SearchResult.mk [⟨9, 9, 9⟩] "") (some "c1")).entries ≠ []
    ∧ ∃ best,
        get_latest_package_info
          (fun ca => if ca = some "c0" then SearchResult.mk [] ""
            else if ca = some "c1" then SearchResult.mk [⟨1, 0, 0⟩] ""
            else SearchResult.mk [⟨9, 9, 9⟩] "")
          (["c0"] ++ "c1" :: ["c2"]) "pkg" = .ok (.found best)
        ∧ select_latest ((fun ca => if ca = some "c0" then SearchResult.mk [] ""
            else if ca = some "c1" then SearchResult.mk [⟨1, 0, 0⟩] ""
            else SearchResult.mk [⟨9, 9, 9⟩] "") (some "c1")).entries
            = some best
        ∧ best ∈ ((fun ca => if ca = some "c0" then SearchResult.mk [] ""
            else if ca = some "c1" then SearchResult.mk [⟨1, 0, 0⟩] ""
            else SearchResult.mk [⟨9, 9, 9⟩] "") (some "c1")).entries :=
  ⟨by decide, by decide,
    get_latest_package_info_first_channel_wins _ ["c0"] "c1" ["c2"] "pkg"
      (by decide) (by decide) (by decide)⟩

/-- C2: at the failing input, the winning channel holds an entry of
version 1 with build number 5 and an entry of version 2 with build number
3; the selection loop keeps the version-1 entry because the loop skips any
entry whose build number is below the current best even when its version
is strictly higher, contradicting the function's own docstring priority
(latest version before largest build number). -/
theorem select_latest_prefers_build_number_over_version :
    select_latest [⟨1, 5, 0⟩, ⟨2, 3, 0⟩] = some ⟨1, 5, 0⟩
    ∧ get_latest_package_info (fun _ => ⟨[⟨1, 5, 0⟩, ⟨2, 3, 0⟩], ""⟩)
        ["c1"] "pkg" = .ok (.found ⟨1, 5, 0⟩)
    ∧ (PackageInfo.mk 1 5 0).version < (PackageInfo.mk 2 3 0).version := by
  refine ⟨by decide, by decide, by decide⟩

/-- C5 counterexample: with no match anywhere, two calls over different
channel lists raise the very same error value, so the raised error cannot
identify the channel list that was queried. -/
theorem get_latest_package_info_error_ignores_channels :
    get_latest_package_info (fun _ => ⟨[], ""⟩) ["channel-a"] "pkg"
      = get_latest_package_info (fun _ => ⟨[], ""⟩) ["channel-b"] "pkg"
    ∧ ∃ e, get_latest_package_info (fun _ => ⟨[], ""⟩) ["channel-a"] "pkg"
        = .error e := by
  exact ⟨by decide, ⟨_, rfl⟩⟩

/-- C5 amended: when every queried search (each channel of C, then the
default search) returns no match for a non-virtual P,
`get_latest_package_info` raises `Error.CONDA_PACKAGE_INFO` whose message
carries the failed command (embedding the generalized specifier of P) and
the concatenated raw output of all the searches; the channel list itself
is not part of the error. -/
theorem get_latest_package_info_no_match_error
    (search : Option String → SearchResult) (channels : List String)
    (pkg : String) (hv : starts_with_dunder pkg = false)
    (h : ∀ ca ∈ channels.map some ++ [none], (search ca).entries = []) :
    get_latest_package_info search channels pkg
      = .error ⟨28, conda_package_info_message
          ("conda search --info " ++ generalize_version_str pkg)
          ((channels.map some ++ [none]).foldl
            (fun a ca => a ++ (search ca).std_out) "")⟩ := by
  simp only [get_latest_package_info, hv, Bool.false_eq_true, if_false]
  exact search_channels_all_empty search _ _ "" h

/-- C5 amended witness. -/
theorem get_latest_package_info_no_match_error_witness :
    starts_with_dunder "pkg" = false
    ∧ (∀ ca ∈ (["chan"].map some ++ [none]),
        ((fun ca' => if ca' = some "chan" then SearchResult.mk [] "out1"
          else SearchResult.mk [] "out2") ca).entries = [])
    ∧ get_latest_package_info
        (fun ca' => if ca' = some "chan" then SearchResult.mk [] "out1"
          else SearchResult.mk [] "out2") ["chan"] "pkg"
      = .error ⟨28, conda_package_info_message
          ("conda search --info " ++ generalize_version_str "pkg")
          (((["chan"].map some ++ [none])).foldl
            (fun a ca => a ++ ((fun ca' =>
              if ca' = some "chan" then SearchResult.mk [] "out1"
              else SearchResult.mk [] "out2") ca).std_out) "")⟩ :=
  ⟨by decide, by decide,
    get_latest_package_info_no_match_error _ ["chan"] "pkg"
      (by decide) (by decide)⟩

/-- C9: a virtual package (name starting with `"__"`) makes
`get_latest_package_info` return the empty-string result at once, for
every collaborator behaviour and every channel list, so no search is
consulted and no unresolved-dependency error can be raised. -/
theorem get_latest_package_info_virtual
    (search : Option String → SearchResult) (channels : List String)
    (pkg : String) (h : starts_with_dunder pkg = true) :
    get_latest_package_info search channels pkg = .ok .virtualPkg := by
  simp [get_latest_package_info, h]

/-- C9 witness. -/
theorem get_latest_package_info_virtual_witness :
    starts_with_dunder "__cuda" = true
    ∧ get_latest_package_info (fun _ => ⟨[⟨3, 1, 7⟩], "noise"⟩)
        ["chan"] "__cuda" = .ok .virtualPkg :=
  ⟨by decide, get_latest_package_info_virtual _ ["chan"] "__cuda" (by decide)⟩

/-! ## Claim theorems for make_variants -/

theorem length_flatMap_map {α β γ : Type} (f : α → β → γ)
    (xs : List α) (ys : List β) :
    (xs.flatMap (fun x => ys.map (f x))).length = xs.length * ys.length := by
  induction xs with
  | nil => simp
  | cons x xs ih =>
    simp only [List.flatMap_cons, List.length_append, List.length_map, ih,
      List.length_cons]
    ring

theorem length_flatMap_flatMap_map {α β γ δ : Type} (f : α → β → γ → δ)
    (xs : List α) (ys : List β) (zs : List γ) :
    (xs.flatMap (fun x => ys.flatMap (fun y => zs.map (f x y)))).length
      = xs.length * (ys.length * zs.length) := by
  induction xs with
  | nil => simp
  | cons x xs ih =>
    simp only [List.flatMap_cons, List.length_append, ih, List.length_cons,
      length_flatMap_map]
    ring

theorem make_variants_cons (py : List String) (b : String) (bs : List String)
    (mpi cu : List String) :
    make_variants py (b :: bs) mpi cu
      = (if b = "cuda" then
          py.flatMap (fun p => mpi.flatMap (fun m => cu.map (fun c =>
            { python := p, build_type := b, mpi_type := m,
              cudatoolkit := some c })))
        else
          py.flatMap (fun p => mpi.map (fun m =>
            { python := p, build_type := b, mpi_type := m,
              cudatoolkit := none })))
        ++ make_variants py bs mpi cu := by
  simp only [make_variants, parse_arg_list, List.flatMap_cons]

theorem make_variants_length (py bt mpi cu : List String) :
    (make_variants py bt mpi cu).length
      = (bt.countP (fun b => !(b == "cuda"))) * (py.length * mpi.length)
        + (bt.countP (fun b => b == "cuda"))
            * (py.length * (mpi.length * cu.length)) := by
  induction bt with
  | nil => simp [make_variants, parse_arg_list]
  | cons b bs ih =>
    by_cases hb : b = "cuda"
    · subst hb
      rw [make_variants_cons, List.length_append, ih, if_pos rfl,
        length_flatMap_flatMap_map]
      simp [List.countP_cons]
      ring
    · have hb' : (b == "cuda") = false := by
        simpa using hb
      rw [make_variants_cons, List.length_append, ih, if_neg hb,
        length_flatMap_map]
      simp [List.countP_cons, hb']
      ring

theorem make_variants_non_cuda_no_toolkit (py bt mpi cu : List String) :
    ∀ v ∈ make_variants py bt mpi cu,
      v.build_type ≠ "cuda" → v.cudatoolkit = none := by
  induction bt with
  | nil =>
    intro v hv
    simp [make_variants, parse_arg_list] at hv
  | cons b bs ih =>
    intro v hv hnc
    rw [make_variants_cons] at hv
    rcases List.mem_append.mp hv with hv | hv
    · by_cases hb : b = "cuda"
      · rw [if_pos hb] at hv
        simp only [List.mem_flatMap, List.mem_map] at hv
        obtain ⟨p, _, m, _, c, _, rfl⟩ := hv
        exact absurd hb hnc
      · rw [if_neg hb] at hv
        simp only [List.mem_flatMap, List.mem_map] at hv
        obtain ⟨p, _, m, _, rfl⟩ := hv
        rfl
    · exact ih v hv hnc

/-- C6: with every parsed axis list non-empty, the expander yields
`|bt| · |py| · |mpi|` variants when no build type is `"cuda"`; in general
every non-cuda build type contributes `|py| · |mpi|` entries and the
`"cuda"` build type `|py| · |mpi| · |cu|` entries, and a variant of a
non-cuda build type carries no cudatoolkit field. -/
theorem make_variants_spec (py bt mpi cu : List String)
    (_hpy : py ≠ []) (_hbt : bt ≠ []) (_hmpi : mpi ≠ []) (_hcu : cu ≠ []) :
    ("cuda" ∉ bt →
      (make_variants py bt mpi cu).length
        = bt.length * (py.length * mpi.length))
    ∧ (make_variants py bt mpi cu).length
        = (bt.countP (fun b => !(b == "cuda"))) * (py.length * mpi.length)
          + (bt.countP (fun b => b == "cuda"))
              * (py.length * (mpi.length * cu.length))
    ∧ (∀ v ∈ make_variants py bt mpi cu,
        v.build_type ≠ "cuda" → v.cudatoolkit = none) := by
  refine ⟨?_, make_variants_length py bt mpi cu,
    make_variants_non_cuda_no_toolkit py bt mpi cu⟩
  intro hnc
  rw [make_variants_length py bt mpi cu]
  have h1 : bt.countP (fun b => !(b == "cuda")) = bt.length := by
    rw [List.countP_eq_length]
    intro b hb
    have hne : b ≠ "cuda" := fun hc => hnc (hc ▸ hb)
    simp [hne]
  have h2 : bt.countP (fun b => b == "cuda") = 0 := by
    rw [List.countP_eq_zero]
    intro b hb
    have hne : b ≠ "cuda" := fun hc => hnc (hc ▸ hb)
    simp [hne]
  rw [h1, h2]
  ring

/-- C6 witness. -/
theorem make_variants_spec_witness :
    (["3.9", "3.10"] : List String) ≠ []
    ∧ (["cpu", "cuda"] : List String) ≠ []
    ∧ (["openmpi"] : List String) ≠ []
    ∧ (["11.2"] : List String) ≠ []
    ∧ (("cuda" ∉ (["cpu", "cuda"] : List String) →
        (make_variants ["3.9", "3.10"] ["cpu", "cuda"] ["openmpi"]
          ["11.2"]).length = 2 * (2 * 1))
      ∧ (make_variants ["3.9", "3.10"] ["cpu", "cuda"] ["openmpi"]
          ["11.2"]).length
          = ((["cpu", "cuda"] : List String).countP (fun b => !(b == "cuda")))
              * (2 * 1)
            + ((["cpu", "cuda"] : List String).countP (fun b => b == "cuda"))
                * (2 * (1 * 1))
      ∧ (∀ v ∈ make_variants ["3.9", "3.10"] ["cpu", "cuda"] ["openmpi"]
            ["11.2"], v.build_type ≠ "cuda" → v.cudatoolkit = none)) :=
  ⟨by decide, by decide, by decide, by decide,
    make_variants_spec ["3.9", "3.10"] ["cpu", "cuda"] ["openmpi"] ["11.2"]
      (by decide) (by decide) (by decide) (by decide)⟩

/-- C7 counterexample: with the python axis empty the expander returns the
empty variant list — a normal return value — instead of failing (no
empty-axis error kind even exists in `errors.py`). -/
theorem make_variants_empty_axis_returns_value :
    make_variants [] ["cpu"] ["openmpi"] ["11.2"] = [] := by decide

/-- C7 amended: an empty python, build-type or mpi axis makes
`make_variants` return the empty list, and an empty cuda-version axis
silently drops all variants of the `"cuda"` build type; no error is ever
raised. -/
theorem make_variants_empty_axis (py bt mpi cu : List String) :
    ((py = [] ∨ bt = [] ∨ mpi = []) → make_variants py bt mpi cu = [])
    ∧ (cu = [] → ∀ v ∈ make_variants py bt mpi cu,
        v.build_type ≠ "cuda") := by
  constructor
  · intro h
    induction bt with
    | nil => rfl
    | cons b bs ih =>
      have hbs : make_variants py bs mpi cu = [] := by
        rcases h with h | h | h
        · exact ih (Or.inl h)
        · exact absurd h (List.cons_ne_nil b bs)
        · exact ih (Or.inr (Or.inr h))
      rw [make_variants_cons, hbs, List.append_nil]
      rcases h with h | h | h
      · subst h
        split <;> rfl
      · exact absurd h (List.cons_ne_nil b bs)
      · subst h
        split <;> simp
  · intro hcu v hv
    induction bt with
    | nil => simp [make_variants, parse_arg_list] at hv
    | cons b bs ih =>
      rw [make_variants_cons] at hv
      rcases List.mem_append.mp hv with hv | hv
      · by_cases hb : b = "cuda"
        · rw [if_pos hb, hcu] at hv
          simp at hv
        · rw [if_neg hb] at hv
          simp only [List.mem_flatMap, List.mem_map] at hv
          obtain ⟨p, _, m, _, rfl⟩ := hv
          exact hb
      · exact ih hv

/-- C7 amended witness. -/
theorem make_variants_empty_axis_witness :
    ((["3.9"] : List String) = [] ∨ (["cuda"] : List String) = []
      ∨ ([] : List String) = [])
    ∧ make_variants ["3.9"] ["cuda"] [] [] = []
    ∧ (∀ v ∈ make_variants ["3.9"] ["cuda"] [] [],
        v.build_type ≠ "cuda") :=
  ⟨Or.inr (Or.inr rfl),
    (make_variants_empty_axis ["3.9"] ["cuda"] [] []).1 (Or.inr (Or.inr rfl)),
    (make_variants_empty_axis ["3.9"] ["cuda"] [] []).2 rfl⟩

/-! ## Claim theorems for OpenCEGraph -/

theorem find?_decomp {α : Type} (p : α → Bool) :
    ∀ (l : List α) (x : α), l.find? p = some x →
      p x = true ∧ ∃ l₁ l₂, l = l₁ ++ x :: l₂ ∧ ∀ q ∈ l₁, p q = false
  | [], x, h => by simp [List.find?] at h
  | a :: l, x, h => by
    by_cases ha : p a
    · rw [List.find?_cons_of_pos l ha] at h
      cases h
      exact ⟨ha, [], l, rfl, by simp⟩
    · rw [List.find?_cons_of_neg l ha] at h
      obtain ⟨hx, l₁, l₂, rfl, hl₁⟩ := find?_decomp p l x h
      refine ⟨hx, a :: l₁, l₂, rfl, ?_⟩
      intro q hq
      rcases List.mem_cons.mp hq with rfl | hq
      · exact Bool.eq_false_iff.mpr ha
      · exact hl₁ q hq

theorem merge_on_first_map_fst {Node V : Type} (eq : Node → Node → Bool)
    (n : Node) (attr : List (String × V)) :
    ∀ nodes : List (Node × List (String × V)),
      (merge_on_first eq nodes n attr).map Prod.fst = nodes.map Prod.fst
  | [] => rfl
  | p :: rest => by
    by_cases hp : eq p.1 n
    · simp [merge_on_first, hp]
    · simp [merge_on_first, hp, merge_on_first_map_fst eq n attr rest]

theorem merge_on_first_decomp {Node V : Type} (eq : Node → Node → Bool)
    (n : Node) (attr : List (String × V)) :
    ∀ (l₁ : List (Node × List (String × V)))
      (p : Node × List (String × V)) (l₂ : List (Node × List (String × V))),
      (∀ q ∈ l₁, eq q.1 n = false) → eq p.1 n = true →
      merge_on_first eq (l₁ ++ p :: l₂) n attr
        = l₁ ++ (p.1, dict_update p.2 attr) :: l₂
  | [], p, l₂, _, hp => by simp [merge_on_first, hp]
  | q :: l₁, p, l₂, hl₁, hp => by
    have hq : ¬(eq q.1 n = true) := by
      simp [hl₁ q (List.mem_cons_self q l₁)]
    simp only [List.cons_append, merge_on_first, if_neg hq]
    exact congrArg (q :: ·) (merge_on_first_decomp eq n attr l₁ p l₂
      (fun r hr => hl₁ r (List.mem_cons_of_mem q hr)) hp)

/-- C3: adding a node equal to a stored one creates no new node — the
stored node list keeps exactly the same nodes, the first-added equal
instance stays, and only its attribute dictionary absorbs the update;
a node with no stored equal is appended; and adding two equal nodes to an
empty graph leaves exactly the first one. -/
theorem add_node_spec {Node V : Type} (eq : Node → Node → Bool)
    (g : OpenCEGraph Node V) (n : Node) (attr : List (String × V)) :
    ((∃ p ∈ g.nodes, eq p.1 n = true) →
      (add_node eq g n attr).nodes.map Prod.fst = g.nodes.map Prod.fst
      ∧ ∃ l₁ p l₂, g.nodes = l₁ ++ p :: l₂
          ∧ (∀ q ∈ l₁, eq q.1 n = false) ∧ eq p.1 n = true
          ∧ (add_node eq g n attr).nodes
              = l₁ ++ (p.1, dict_update p.2 attr) :: l₂)
    ∧ ((∀ p ∈ g.nodes, eq p.1 n = false) →
        (add_node eq g n attr).nodes = g.nodes ++ [(n, dict_update [] attr)])
    ∧ (∀ (m : Node) (a₁ a₂ : List (String × V)), eq n m = true →
        (add_node eq (add_node eq (⟨[], []⟩ : OpenCEGraph Node V) n a₁) m a₂).nodes.map
          Prod.fst = [n]) := by
  refine ⟨?_, ?_, ?_⟩
  · intro h
    obtain ⟨p₀, hp₀, hep₀⟩ := h
    have hsome : (g.nodes.find? (fun p => eq p.1 n)).isSome :=
      List.find?_isSome.mpr ⟨p₀, hp₀, hep₀⟩
    have hname : add_node eq g n attr
        = { g with nodes := merge_on_first eq g.nodes n attr } := by
      rw [add_node, if_pos hsome]
    rcases hfind : g.nodes.find? (fun p => eq p.1 n) with _ | x
    · rw [hfind] at hsome
      exact absurd hsome (by simp)
    · obtain ⟨hx, l₁, l₂, hdec, hl₁⟩ := find?_decomp _ g.nodes x hfind
      constructor
      · rw [hname]
        exact merge_on_first_map_fst eq n attr g.nodes
      · refine ⟨l₁, x, l₂, hdec, hl₁, hx, ?_⟩
        rw [hname, hdec]
        exact merge_on_first_decomp eq n attr l₁ x l₂ hl₁ hx
  · intro h
    have hnone : g.nodes.find? (fun p => eq p.1 n) = none := by
      rw [List.find?_eq_none]
      intro p hp
      simp [h p hp]
    rw [add_node, hnone]
    simp
  · intro m a₁ a₂ hm
    have h1 : (add_node eq (⟨[], []⟩ : OpenCEGraph Node V) n a₁).nodes
        = [(n, dict_update [] a₁)] := by
      rw [add_node]
      simp [List.find?]
    have hfind : ((add_node eq (⟨[], []⟩ : OpenCEGraph Node V) n a₁).nodes.find?
        (fun p => eq p.1 m)).isSome := by
      rw [h1]
      simp [List.find?, hm]
    rw [add_node, if_pos hfind, h1]
    simp [merge_on_first, hm]

/-- C3 witness: the two DependencyNode-style nodes have intersecting
package sets, and the graph keeps only the first-added one. -/
theorem add_node_spec_witness :
    (fun (a b : List String) => a.any (fun x => b.contains x))
      ["a", "b"] ["b", "c"] = true
    ∧ (add_node (fun (a b : List String) => a.any (fun x => b.contains x))
        (add_node (fun (a b : List String) => a.any (fun x => b.contains x))
          (⟨[], []⟩ : OpenCEGraph (List String) Nat) ["a", "b"] [("x", 1)])
        ["b", "c"] [("y", 2)]).nodes.map Prod.fst = [["a", "b"]] :=
  ⟨by decide,
    (add_node_spec (fun (a b : List String) => a.any (fun x => b.contains x))
      (⟨[], []⟩ : OpenCEGraph (List String) Nat) ["a", "b"] []).2.2
      ["b", "c"] [("x", 1)] [("y", 2)] (by decide)⟩

theorem resolve_node_found {Node V : Type} (eq : Node → Node → Bool)
    (g : OpenCEGraph Node V) (n : Node) (p : Node × List (String × V))
    (h : g.nodes.find? (fun q => eq q.1 n) = some p) :
    resolve_node eq g n = (g, p.1) := by
  rw [resolve_node, h]

theorem resolve_node_not_found {Node V : Type} (eq : Node → Node → Bool)
    (g : OpenCEGraph Node V) (n : Node)
    (h : g.nodes.find? (fun q => eq q.1 n) = none) :
    resolve_node eq g n = ({ g with nodes := g.nodes ++ [(n, [])] }, n) := by
  rw [resolve_node, h]

theorem edge_mem_add_edge {Node V : Type} [DecidableEq Node]
    (g2 : OpenCEGraph Node V) (u' v' : Node) :
    (u', v') ∈ (if (u', v') ∈ g2.edges then g2
      else { g2 with edges := g2.edges ++ [(u', v')] }).edges := by
  by_cases h : (u', v') ∈ g2.edges
  · rw [if_pos h]
    exact h
  · rw [if_neg h]
    simp

/-- C4: `add_edge` stores an edge between the canonical instances of its
endpoints: each endpoint is resolved to the first stored equal node when
one exists (`u` first, then `v` against the possibly-extended store, so
`v` may resolve to a freshly inserted `u`); an endpoint with no stored
equal is inserted; and every inserted node is equal to no node stored
before the call, preserving the no-duplicate invariant. -/
theorem add_edge_spec {Node V : Type} [DecidableEq Node]
    (eq : Node → Node → Bool) (g : OpenCEGraph Node V) (u v : Node) :
    ∃ u' v',
      (u', v') ∈ (add_edge eq g u v).edges
      ∧ u' ∈ (add_edge eq g u v).nodes.map Prod.fst
      ∧ v' ∈ (add_edge eq g u v).nodes.map Prod.fst
      ∧ ((eq u' u = true ∧ ∃ l₁ a l₂, g.nodes = l₁ ++ (u', a) :: l₂
            ∧ ∀ q ∈ l₁, eq q.1 u = false)
          ∨ (u' = u ∧ ∀ p ∈ g.nodes, eq p.1 u = false))
      ∧ ((eq v' v = true ∧ ∃ l₁ a l₂, g.nodes = l₁ ++ (v', a) :: l₂
            ∧ ∀ q ∈ l₁, eq q.1 v = false)
          ∨ ((∀ p ∈ g.nodes, eq p.1 v = false)
              ∧ ((v' = u ∧ eq u v = true) ∨ v' = v)))
      ∧ ∃ new, (add_edge eq g u v).nodes.map Prod.fst
            = g.nodes.map Prod.fst ++ new
          ∧ (new = [] ∨ new = [u] ∨ new = [v] ∨ new = [u, v])
          ∧ ∀ x ∈ new, ∀ p ∈ g.nodes, eq p.1 x = false := by
  rcases hfu : g.nodes.find? (fun q => eq q.1 u) with _ | pu
  · -- u has no stored equal: it is inserted
    have hu_all : ∀ p ∈ g.nodes, eq p.1 u = false := by
      rw [List.find?_eq_none] at hfu
      intro p hp
      simpa using hfu p hp
    rcases hgv : g.nodes.find? (fun q => eq q.1 v) with _ | pv
    · -- v has no stored equal in g either
      have hv_all : ∀ p ∈ g.nodes, eq p.1 v = false := by
        rw [List.find?_eq_none] at hgv
        intro p hp
        simpa using hgv p hp
      by_cases heuv : eq u v = true
      · -- v resolves to the freshly inserted u
        have hfv : ((g.nodes ++ [(u, [])]).find?
            (fun q : Node × List (String × V) => eq q.1 v)) = some (u, []) := by
          rw [List.find?_append, hgv]
          simp [List.find?, heuv]
        have hae : add_edge eq g u v
            = (if (u, u) ∈ g.edges then
                { g with nodes := g.nodes ++ [(u, [])] }
              else { g with nodes := g.nodes ++ [(u, [])], edges := g.edges ++ [(u, u)] }) := by
          simp only [add_edge, resolve_node_not_found eq g u hfu,
            resolve_node_found eq { g with nodes := g.nodes ++ [(u, [])] } v (u, []) hfv]
        have hn : (add_edge eq g u v).nodes = g.nodes ++ [(u, [])] := by
          rw [hae]
          split <;> rfl
        refine ⟨u, u, ?_, ?_, ?_, ?_, ?_, ?_⟩
        · rw [hae]
          exact edge_mem_add_edge { g with nodes := g.nodes ++ [(u, [])] } u u
        · rw [hn]
          simp
        · rw [hn]
          simp
        · exact Or.inr ⟨rfl, hu_all⟩
        · exact Or.inr ⟨hv_all, Or.inl ⟨rfl, heuv⟩⟩
        · refine ⟨[u], ?_, Or.inr (Or.inl rfl), ?_⟩
          · rw [hn]
            simp
          · intro x hx
            rcases List.mem_singleton.mp hx with rfl
            exact hu_all
      · -- both u and v are inserted
        have heuv' : eq u v = false := Bool.eq_false_iff.mpr heuv
        have hfv : ((g.nodes ++ [(u, [])]).find?
            (fun q : Node × List (String × V) => eq q.1 v)) = none := by
          rw [List.find?_append, hgv]
          simp [List.find?, heuv']
        have hae : add_edge eq g u v
            = (if (u, v) ∈ g.edges then
                { g with nodes := (g.nodes ++ [(u, [])]) ++ [(v, [])] }
              else { g with nodes := (g.nodes ++ [(u, [])]) ++ [(v, [])], edges := g.edges ++ [(u, v)] }) := by
          simp only [add_edge, resolve_node_not_found eq g u hfu,
            resolve_node_not_found eq { g with nodes := g.nodes ++ [(u, [])] } v hfv]
        have hn : (add_edge eq g u v).nodes
            = (g.nodes ++ [(u, [])]) ++ [(v, [])] := by
          rw [hae]
          split <;> rfl
        refine ⟨u, v, ?_, ?_, ?_, ?_, ?_, ?_⟩
        · rw [hae]
          exact edge_mem_add_edge
            { g with nodes := (g.nodes ++ [(u, [])]) ++ [(v, [])] } u v
        · rw [hn]
          simp
        · rw [hn]
          simp
        · exact Or.inr ⟨rfl, hu_all⟩
        · exact Or.inr ⟨hv_all, Or.inr rfl⟩
        · refine ⟨[u, v], ?_, Or.inr (Or.inr (Or.inr rfl)), ?_⟩
          · rw [hn]
            simp
          · intro x hx
            rcases List.mem_cons.mp hx with rfl | hx
            · exact hu_all
            · rcases List.mem_singleton.mp hx with rfl
              exact hv_all
    · -- u inserted, v resolves to a node stored in g
      obtain ⟨v1, va⟩ := pv
      obtain ⟨hev, m₁, m₂, hmdec, hm₁⟩ := find?_decomp _ g.nodes (v1, va) hgv
      have hfv : ((g.nodes ++ [(u, [])]).find?
          (fun q : Node × List (String × V) => eq q.1 v)) = some (v1, va) := by
        rw [List.find?_append, hgv]
        rfl
      have hae : add_edge eq g u v
          = (if (u, v1) ∈ g.edges then
              { g with nodes := g.nodes ++ [(u, [])] }
            else { g with nodes := g.nodes ++ [(u, [])], edges := g.edges ++ [(u, v1)] }) := by
        simp only [add_edge, resolve_node_not_found eq g u hfu,
          resolve_node_found eq { g with nodes := g.nodes ++ [(u, [])] } v (v1, va) hfv]
      have hn : (add_edge eq g u v).nodes = g.nodes ++ [(u, [])] := by
        rw [hae]
        split <;> rfl
      refine ⟨u, v1, ?_, ?_, ?_, ?_, ?_, ?_⟩
      · rw [hae]
        exact edge_mem_add_edge { g with nodes := g.nodes ++ [(u, [])] } u v1
      · rw [hn]
        simp
      · rw [hn]
        have : v1 ∈ g.nodes.map Prod.fst :=
          List.mem_map_of_mem Prod.fst (List.mem_of_find?_eq_some hgv)
        simp only [List.map_append]
        exact List.mem_append_left _ this
      · exact Or.inr ⟨rfl, hu_all⟩
      · exact Or.inl ⟨by simpa using hev, m₁, va, m₂, hmdec, hm₁⟩
      · refine ⟨[u], ?_, Or.inr (Or.inl rfl), ?_⟩
        · rw [hn]
          simp
        · intro x hx
          rcases List.mem_singleton.mp hx with rfl
          exact hu_all
  · -- u resolves to a node stored in g
    obtain ⟨u1, ua⟩ := pu
    obtain ⟨heu, k₁, k₂, hkdec, hk₁⟩ := find?_decomp _ g.nodes (u1, ua) hfu
    have hu_mem : u1 ∈ g.nodes.map Prod.fst :=
      List.mem_map_of_mem Prod.fst (List.mem_of_find?_eq_some hfu)
    rcases hgv : g.nodes.find? (fun q => eq q.1 v) with _ | pv
    · -- v is inserted
      have hv_all : ∀ p ∈ g.nodes, eq p.1 v = false := by
        rw [List.find?_eq_none] at hgv
        intro p hp
        simpa using hgv p hp
      have hae : add_edge eq g u v
          = (if (u1, v) ∈ g.edges then
              { g with nodes := g.nodes ++ [(v, [])] }
            else { g with nodes := g.nodes ++ [(v, [])], edges := g.edges ++ [(u1, v)] }) := by
        simp only [add_edge, resolve_node_found eq g u (u1, ua) hfu,
          resolve_node_not_found eq g v hgv]
      have hn : (add_edge eq g u v).nodes = g.nodes ++ [(v, [])] := by
        rw [hae]
        split <;> rfl
      refine ⟨u1, v, ?_, ?_, ?_, ?_, ?_, ?_⟩
      · rw [hae]
        exact edge_mem_add_edge { g with nodes := g.nodes ++ [(v, [])] } u1 v
      · rw [hn]
        simp only [List.map_append]
        exact List.mem_append_left _ hu_mem
      · rw [hn]
        simp
      · exact Or.inl ⟨by simpa using heu, k₁, ua, k₂, hkdec, hk₁⟩
      · exact Or.inr ⟨hv_all, Or.inr rfl⟩
      · refine ⟨[v], ?_, Or.inr (Or.inr (Or.inl rfl)), ?_⟩
        · rw [hn]
          simp
        · intro x hx
          rcases List.mem_singleton.mp hx with rfl
          exact hv_all
    · -- both endpoints resolve to stored nodes
      obtain ⟨v1, va⟩ := pv
      obtain ⟨hev, m₁, m₂, hmdec, hm₁⟩ := find?_decomp _ g.nodes (v1, va) hgv
      have hae : add_edge eq g u v
          = (if (u1, v1) ∈ g.edges then g
            else { g with edges := g.edges ++ [(u1, v1)] }) := by
        simp only [add_edge, resolve_node_found eq g u (u1, ua) hfu,
          resolve_node_found eq g v (v1, va) hgv]
      have hn : (add_edge eq g u v).nodes = g.nodes := by
        rw [hae]
        split <;> rfl
      refine ⟨u1, v1, ?_, ?_, ?_, ?_, ?_, ?_⟩
      · rw [hae]
        exact edge_mem_add_edge g u1 v1
      · rw [hn]
        exact hu_mem
      · rw [hn]
        exact List.mem_map_of_mem Prod.fst (List.mem_of_find?_eq_some hgv)
      · exact Or.inl ⟨by simpa using heu, k₁, ua, k₂, hkdec, hk₁⟩
      · exact Or.inl ⟨by simpa using hev, m₁, va, m₂, hmdec, hm₁⟩
      · exact ⟨[], by simp [hn], Or.inl rfl, by simp⟩

/-- C4 witness: `u` shares a package with the stored node, `v` is new. -/
theorem add_edge_spec_witness :
    ∃ u' v', (u', v') ∈ (add_edge
      (fun (a b : List String) => a.any (fun x => b.contains x))
      (⟨[(["p1"], [])], []⟩ : OpenCEGraph (List String) Nat)
      ["p1", "x"] ["q"]).edges := by
  obtain ⟨u', v', h, -⟩ := add_edge_spec
    (fun (a b : List String) => a.any (fun x => b.contains x))
    (⟨[(["p1"], [])], []⟩ : OpenCEGraph (List String) Nat) ["p1", "x"] ["q"]
  exact ⟨u', v', h⟩

/-! ## Lemmas about the specifier regex model -/

theorem takeWhile_all {α : Type} (p : α → Bool) :
    ∀ l : List α, (∀ c ∈ l, p c = true) → l.takeWhile p = l
  | [], _ => rfl
  | c :: cs, h => by
    rw [List.takeWhile_cons_of_pos (h c (List.mem_cons_self c cs))]
    rw [takeWhile_all p cs (fun x hx => h x (List.mem_cons_of_mem c hx))]

theorem takeWhile_append_all {α : Type} (p : α → Bool) :
    ∀ (a b : List α), (∀ c ∈ a, p c = true) →
      (a ++ b).takeWhile p = a ++ b.takeWhile p
  | [], b, _ => rfl
  | c :: cs, b, h => by
    rw [List.cons_append,
      List.takeWhile_cons_of_pos (h c (List.mem_cons_self c cs)),
      takeWhile_append_all p cs b (fun x hx => h x (List.mem_cons_of_mem c hx)),
      List.cons_append]

theorem dropWhile_append_all {α : Type} (p : α → Bool) :
    ∀ (a b : List α), (∀ c ∈ a, p c = true) →
      (a ++ b).dropWhile p = b.dropWhile p
  | [], b, _ => rfl
  | c :: cs, b, h => by
    rw [List.cons_append,
      List.dropWhile_cons_of_pos (h c (List.mem_cons_self c cs))]
    exact dropWhile_append_all p cs b (fun x hx => h x (List.mem_cons_of_mem c hx))

theorem dropWhile_head_not {α : Type} (p : α → Bool) :
    ∀ (l : List α) (c : α) (t : List α), l.dropWhile p = c :: t → p c = false
  | [], c, t, h => by cases h
  | a :: l, c, t, h => by
    by_cases ha : p a
    · rw [List.dropWhile_cons_of_pos ha] at h
      exact dropWhile_head_not p l c t h
    · rw [List.dropWhile_cons_of_neg ha] at h
      cases h
      exact Bool.eq_false_iff.mpr ha

theorem mem_takeWhile_pos {α : Type} (p : α → Bool) :
    ∀ (l : List α) (c : α), c ∈ l.takeWhile p → p c = true
  | [], c, h => by cases h
  | a :: l, c, h => by
    by_cases ha : p a
    · rw [List.takeWhile_cons_of_pos ha] at h
      rcases List.mem_cons.mp h with rfl | h
      · exact ha
      · exact mem_takeWhile_pos p l c h
    · rw [List.takeWhile_cons_of_neg ha] at h
      cases h

theorem isDigit_ne_of_not_digit {c x : Char} (h : c.isDigit = true)
    (hx : x.isDigit = false) : ¬(c = x) := by
  intro he
  rw [he, hx] at h
  cases h

theorem digit_not_g2c (c : Char) (h : c.isDigit = true) : g2c c = false := by
  simp [g2c, wsChar,
    isDigit_ne_of_not_digit h (x := ' ') (by decide),
    isDigit_ne_of_not_digit h (x := '\t') (by decide),
    isDigit_ne_of_not_digit h (x := '\n') (by decide),
    isDigit_ne_of_not_digit h (x := '\r') (by decide),
    isDigit_ne_of_not_digit h (x := '\x0b') (by decide),
    isDigit_ne_of_not_digit h (x := '\x0c') (by decide),
    isDigit_ne_of_not_digit h (x := '=') (by decide),
    isDigit_ne_of_not_digit h (x := '<') (by decide),
    isDigit_ne_of_not_digit h (x := '>') (by decide)]

theorem digit_g3c (c : Char) (h : c.isDigit = true) : g3c c = true := by
  simp [g3c, h]

theorem collapseAux_true_head_not_ws :
    ∀ (l : List Char) (d : Char) (t : List Char),
      collapseAux true l = d :: t → wsChar d = false
  | [], d, t, h => by cases h
  | c :: cs, d, t, h => by
    by_cases hc : wsChar c
    · rw [collapseAux, if_pos hc, if_pos rfl] at h
      exact collapseAux_true_head_not_ws cs d t h
    · rw [collapseAux, if_neg hc] at h
      cases h
      exact Bool.eq_false_iff.mpr hc

theorem wsIsSpace_collapseAux : ∀ (l : List Char) (b : Bool),
    wsIsSpace (collapseAux b l) = true
  | [], _ => rfl
  | c :: cs, b => by
    by_cases hc : wsChar c
    · cases b
      · rw [collapseAux, if_pos hc, if_neg (by simp)]
        have ih := wsIsSpace_collapseAux cs true
        simp only [wsIsSpace, List.all_cons] at ih ⊢
        simp [ih]
      · rw [collapseAux, if_pos hc, if_pos rfl]
        exact wsIsSpace_collapseAux cs true
    · rw [collapseAux, if_neg hc]
      have ih := wsIsSpace_collapseAux cs false
      simp only [wsIsSpace, List.all_cons] at ih ⊢
      simp [ih, hc]

theorem noAdjWs_cons_head (c : Char) (l : List Char)
    (h : noAdjWs l = true)
    (hhead : ∀ d t, l = d :: t → wsChar c = false ∨ wsChar d = false) :
    noAdjWs (c :: l) = true := by
  cases l with
  | nil => rfl
  | cons d t =>
    have := hhead d t rfl
    simp only [noAdjWs, Bool.and_eq_true]
    refine ⟨?_, h⟩
    rcases this with h1 | h1 <;> simp [h1]

theorem noAdjWs_collapseAux : ∀ (l : List Char) (b : Bool),
    noAdjWs (collapseAux b l) = true
  | [], _ => rfl
  | c :: cs, b => by
    by_cases hc : wsChar c
    · cases b
      · rw [collapseAux, if_pos hc, if_neg (by simp)]
        refine noAdjWs_cons_head ' ' (collapseAux true cs)
          (noAdjWs_collapseAux cs true) ?_
        intro d t hdt
        exact Or.inr (collapseAux_true_head_not_ws cs d t hdt)
      · rw [collapseAux, if_pos hc, if_pos rfl]
        exact noAdjWs_collapseAux cs true
    · rw [collapseAux, if_neg hc]
      refine noAdjWs_cons_head c (collapseAux false cs)
        (noAdjWs_collapseAux cs false) ?_
      intro d t _
      exact Or.inl (Bool.eq_false_iff.mpr hc)

theorem collapseAux_true_eq_false_of_head_not_ws :
    ∀ l : List Char, (∀ d t, l = d :: t → wsChar d = false) →
      collapseAux true l = collapseAux false l
  | [], _ => rfl
  | c :: cs, h => by
    have hc : wsChar c = false := h c cs rfl
    rw [collapseAux, collapseAux, if_neg (by simp [hc]), if_neg (by simp [hc])]

theorem noAdjWs_tail (c : Char) (l : List Char)
    (h : noAdjWs (c :: l) = true) : noAdjWs l = true := by
  cases l with
  | nil => rfl
  | cons d t =>
    simp only [noAdjWs, Bool.and_eq_true] at h
    exact h.2

theorem collapseAux_fix : ∀ l : List Char,
    wsIsSpace l = true → noAdjWs l = true → collapseAux false l = l
  | [], _, _ => rfl
  | c :: cs, hs, ha => by
    have hs' : wsIsSpace cs = true := by
      simp only [wsIsSpace, List.all_cons, Bool.and_eq_true] at hs
      exact hs.2
    have ih := collapseAux_fix cs hs' (noAdjWs_tail c cs ha)
    by_cases hc : wsChar c
    · have hcsp : c = ' ' := by
        simp only [wsIsSpace, List.all_cons, Bool.and_eq_true] at hs
        have := hs.1
        simp [hc] at this
        exact this
      have hhead : ∀ d t, cs = d :: t → wsChar d = false := by
        intro d t hdt
        subst hdt
        simp only [noAdjWs, Bool.and_eq_true] at ha
        have := ha.1
        simp [hc] at this
        exact this
      rw [collapseAux, if_pos hc, if_neg (by simp), hcsp,
        collapseAux_true_eq_false_of_head_not_ws cs hhead, ih]
    · rw [collapseAux, if_neg hc, ih]

theorem collapse_idem (l : List Char) : collapse (collapse l) = collapse l :=
  collapseAux_fix (collapseAux false l) (wsIsSpace_collapseAux l false)
    (noAdjWs_collapseAux l false)

theorem matchCaseB_op_nil (run rest : List Char)
    (r : List Char × List Char × List Char × List Char)
    (h : matchCaseB run rest = some r) : r.2.1 = [] := by
  unfold matchCaseB at h
  rcases hld : lastDigitSplit run with _ | ⟨p, d', q⟩ <;> rw [hld] at h
  · cases h
  · rw [matchCaseBAux] at h
    by_cases hp : p = []
    · rw [if_pos hp] at h
      cases h
    · rw [if_neg hp] at h
      cases h
      rfl

/-- A successful match with a non-empty operator group is a greedy match:
the name group is the maximal `[\w-]` run, the operator group the maximal
`[\s=<>]` run after it, the version group starts at the digit that
follows, and the build group is `g4parse` of the remainder. -/
theorem tryMatch_caseA {s n op v b : List Char}
    (h : tryMatch s = some (n, op, v, b)) (hop : op ≠ []) :
    n = s.takeWhile g1c ∧ n ≠ []
    ∧ op = (s.dropWhile g1c).takeWhile g2c
    ∧ ∃ d t, (s.dropWhile g1c).dropWhile g2c = d :: t ∧ d.isDigit = true
        ∧ v = d :: t.takeWhile g3c ∧ b = g4parse (t.dropWhile g3c) := by
  unfold tryMatch at h
  by_cases hrun : s.takeWhile g1c = []
  · rw [if_pos hrun] at h
    cases h
  · rw [if_neg hrun] at h
    rcases hsc : (s.dropWhile g1c).dropWhile g2c with _ | ⟨d, tl⟩ <;>
      rw [hsc] at h
    · have := matchCaseB_op_nil _ _ _ h
      simp only at this
      exact absurd this hop
    · by_cases hd : d.isDigit
      · rw [afterNameAux, if_pos hd] at h
        simp only [Option.some.injEq, Prod.mk.injEq] at h
        obtain ⟨h1, h2, h3, h4⟩ := h
        refine ⟨h1.symm, ?_, h2.symm, d, tl, rfl, hd, h3.symm, h4.symm⟩
        rw [h1] at hrun
        exact hrun
      · rw [afterNameAux, if_neg hd] at h
        have := matchCaseB_op_nil _ _ _ h
        simp only at this
        exact absurd this hop

/-- C8 counterexample: `"numpy1.2"` matches the specifier regex with an
absent (empty) operator group and the bare trailing version `"1.2"`, yet
`generalize_version` returns it unmodified — no `.*` is appended when the
operator is absent. -/
theorem generalize_version_absent_op_unchanged :
    tryMatch (collapse ['n', 'u', 'm', 'p', 'y', '1', '.', '2'])
      = some (['n', 'u', 'm', 'p', 'y'], [], ['1', '.', '2'], [])
    ∧ lastIsDigit ['1', '.', '2'] = true
    ∧ endsDotStar ['1', '.', '2'] = false
    ∧ generalize_version ['n', 'u', 'm', 'p', 'y', '1', '.', '2']
        = ['n', 'u', 'm', 'p', 'y', '1', '.', '2'] := by
  refine ⟨by decide, by decide, by decide, by decide⟩

/-- C8 amended: for a specifier whose version group ends in a bare digit
(not already `.*`-suffixed), `.*` is appended exactly when the operator
group is non-empty and strips to `"=="` or to nothing (i.e. is
whitespace); an absent operator leaves the specifier unchanged, and so do
the comparison operators `>`, `>=`, `<`, `<=` and an already-wildcarded
version — all up to the initial whitespace collapse. -/
theorem generalize_version_spec (s n op v b : List Char)
    (h : tryMatch (collapse s) = some (n, op, v, b)) :
    ((op ≠ [] ∧ (stripWs op = ['=', '='] ∨ stripWs op = [])
      ∧ endsDotStar v = false ∧ lastIsDigit v = true) →
      generalize_version s = n ++ op ++ v ++ ['.', '*'] ++ b)
    ∧ ((stripWs op = ['>'] ∨ stripWs op = ['>', '=']
        ∨ stripWs op = ['<'] ∨ stripWs op = ['<', '=']) →
      generalize_version s = collapse s)
    ∧ (endsDotStar v = true → generalize_version s = collapse s)
    ∧ (op = [] → generalize_version s = collapse s) := by
  refine ⟨?_, ?_, ?_, ?_⟩
  · intro ⟨hop, hstrip, hends, hlast⟩
    have hv : v ≠ [] := by
      intro hveq
      rw [hveq] at hlast
      cases hlast
    simp only [generalize_version]
    rw [h, genVerAux]
    have hcond : (v.length > 0 && op.length > 0) = true := by
      simp [List.length_pos, hv, hop]
    rw [if_pos hcond]
    have hcond2 : (!(endsDotStar v) && lastIsDigit v &&
        (stripWs op = ['=', '='] || stripWs op = [' '] || stripWs op = []))
        = true := by
      rcases hstrip with hstrip | hstrip <;> simp [hends, hlast, hstrip]
    rw [if_pos hcond2]
  · intro hstrip
    simp only [generalize_version]
    rw [h, genVerAux]
    by_cases hcond : (v.length > 0 && op.length > 0) = true
    · rw [if_pos hcond]
      have hcond2 : (!(endsDotStar v) && lastIsDigit v &&
          (stripWs op = ['=', '='] || stripWs op = [' '] || stripWs op = []))
          = false := by
        rcases hstrip with hstrip | hstrip | hstrip | hstrip <;>
          simp [hstrip]
      rw [hcond2]
      rfl
    · rw [if_neg hcond]
  · intro hends
    simp only [generalize_version]
    rw [h, genVerAux]
    by_cases hcond : (v.length > 0 && op.length > 0) = true
    · rw [if_pos hcond]
      have hcond2 : (!(endsDotStar v) && lastIsDigit v &&
          (stripWs op = ['=', '='] || stripWs op = [' '] || stripWs op = []))
          = false := by
        simp [hends]
      rw [hcond2]
      rfl
    · rw [if_neg hcond]
  · intro hopeq
    simp only [generalize_version]
    rw [h, genVerAux]
    have hcond : (v.length > 0 && op.length > 0) = false := by
      simp [hopeq]
    rw [hcond]
    rfl

/-- C8 amended witness: `"numpy ==1.2"` gains the wildcard,
`"numpy >=1.2"` and `"numpy 1.2.*"` and `"numpy1.2"` do not. -/
theorem generalize_version_spec_witness :
    (tryMatch (collapse ('n' :: 'u' :: 'm' :: 'p' :: 'y' :: ' ' :: '=' :: '=' ::
        '1' :: '.' :: '2' :: []))
      = some (['n', 'u', 'm', 'p', 'y'], [' ', '=', '='], ['1', '.', '2'], []))
    ∧ ([' ', '=', '='] : List Char) ≠ []
    ∧ (stripWs [' ', '=', '='] = ['=', '='] ∨ stripWs [' ', '=', '='] = [])
    ∧ endsDotStar ['1', '.', '2'] = false
    ∧ lastIsDigit ['1', '.', '2'] = true
    ∧ generalize_version ('n' :: 'u' :: 'm' :: 'p' :: 'y' :: ' ' :: '=' :: '=' ::
        '1' :: '.' :: '2' :: [])
      = ['n', 'u', 'm', 'p', 'y'] ++ [' ', '=', '='] ++ ['1', '.', '2']
          ++ ['.', '*'] ++ [] :=
  ⟨by decide, by decide, Or.inl (by decide), by decide, by decide,
    (generalize_version_spec _ _ _ _ _ (by decide)).1
      ⟨by decide, Or.inl (by decide), by decide, by decide⟩⟩

theorem ws_not_g1c (c : Char) (h : wsChar c = true) : g1c c = false := by
  simp only [wsChar, Bool.or_eq_true, decide_eq_true_eq] at h
  rcases h with ((((rfl | rfl) | rfl) | rfl) | rfl) | rfl <;> decide

theorem ws_not_g3c (c : Char) (h : wsChar c = true) : g3c c = false := by
  simp only [wsChar, Bool.or_eq_true, decide_eq_true_eq] at h
  rcases h with ((((rfl | rfl) | rfl) | rfl) | rfl) | rfl <;> decide

theorem takeWhile_eq_cons {α : Type} (p : α → Bool) :
    ∀ (l : List α) (c : α) (t : List α), l.takeWhile p = c :: t →
      ∃ t', l = c :: t' ∧ p c = true
  | [], c, t, h => by cases h
  | a :: l, c, t, h => by
    by_cases ha : p a
    · rw [List.takeWhile_cons_of_pos ha] at h
      cases h
      exact ⟨l, rfl, ha⟩
    · rw [List.takeWhile_cons_of_neg ha] at h
      cases h

theorem getLast?_some_mem {α : Type} :
    ∀ (l : List α) (c : α), l.getLast? = some c → c ∈ l
  | [], c, h => by cases h
  | [a], c, h => by
    cases h
    exact List.mem_singleton.mpr rfl
  | a :: b :: l, c, h => by
    rw [List.getLast?_cons_cons] at h
    exact List.mem_cons_of_mem a (getLast?_some_mem (b :: l) c h)

theorem g4parse_no_newline (l : List Char)
    (h : ∀ c ∈ l, ¬(c = '\n')) : g4parse l = l := by
  unfold g4parse
  have hdw : ∀ c ∈ l.dropWhile g4c, ¬(c = '\n') := by
    intro c hc
    exact h c (List.Sublist.mem hc (List.dropWhile_sublist g4c))
  rw [takeWhile_all _ (l.dropWhile g4c) (by
    intro c hc
    simp [hdw c hc])]
  exact List.takeWhile_append_dropWhile g4c l

theorem noAdjWs_split : ∀ x y : List Char,
    noAdjWs (x ++ y) = true → noAdjWs x = true ∧ noAdjWs y = true
  | [], y, h => ⟨rfl, h⟩
  | [c], y, h => by
    refine ⟨rfl, ?_⟩
    cases y with
    | nil => rfl
    | cons d t =>
      simp only [List.cons_append, List.nil_append, noAdjWs,
        Bool.and_eq_true] at h
      exact h.2
  | c :: c' :: x, y, h => by
    simp only [List.cons_append, noAdjWs, Bool.and_eq_true] at h
    obtain ⟨h1, h2⟩ := h
    have ih := noAdjWs_split (c' :: x) y h2
    refine ⟨?_, ih.2⟩
    simp only [noAdjWs, Bool.and_eq_true]
    exact ⟨h1, ih.1⟩

theorem noAdjWs_join_last_not_ws : ∀ x y : List Char,
    noAdjWs x = true → noAdjWs y = true →
    (∀ cx, x.getLast? = some cx → wsChar cx = false) →
    noAdjWs (x ++ y) = true
  | [], y, _, hy, _ => hy
  | [c], y, _, hy, hlast => by
    rw [List.singleton_append]
    refine noAdjWs_cons_head c y hy ?_
    intro d t _
    exact Or.inl (hlast c rfl)
  | c :: c' :: x, y, hx, hy, hlast => by
    simp only [noAdjWs, Bool.and_eq_true] at hx
    have ih := noAdjWs_join_last_not_ws (c' :: x) y hx.2 hy (by
      intro cx hcx
      apply hlast
      rw [List.getLast?_cons_cons]
      exact hcx)
    simp only [List.cons_append, noAdjWs, Bool.and_eq_true] at ih ⊢
    exact ⟨hx.1, ih⟩

/-- After the wildcard append, the result is still whitespace-collapsed
and matches the regex again with the version group `v ++ ".*"` — the key
step of idempotence. -/
theorem append_case_roundtrip (s n op v b : List Char)
    (hcol : collapse s = s)
    (h : tryMatch s = some (n, op, v, b))
    (hop : op ≠ []) :
    collapse (n ++ op ++ v ++ ['.', '*'] ++ b)
      = n ++ op ++ v ++ ['.', '*'] ++ b
    ∧ tryMatch (n ++ op ++ v ++ ['.', '*'] ++ b)
      = some (n, op, v ++ ['.', '*'], b) := by
  obtain ⟨hn, hnne, hope, d, t, hsc, hd, hv, hb⟩ := tryMatch_caseA h hop
  have hws : wsIsSpace s = true := by
    rw [← hcol]
    exact wsIsSpace_collapseAux s false
  have hadj : noAdjWs s = true := by
    rw [← hcol]
    exact noAdjWs_collapseAux s false
  have hsplit1 : n ++ s.dropWhile g1c = s := by
    rw [hn]
    exact List.takeWhile_append_dropWhile g1c s
  have hsplit2 : op ++ (d :: t) = s.dropWhile g1c := by
    rw [hope, ← hsc]
    exact List.takeWhile_append_dropWhile g2c _
  have hsplit3 : t.takeWhile g3c ++ t.dropWhile g3c = t :=
    List.takeWhile_append_dropWhile g3c t
  have hdt : (d :: t) = v ++ t.dropWhile g3c := by
    rw [hv, List.cons_append, hsplit3]
  have hs_eq : s = n ++ (op ++ (v ++ t.dropWhile g3c)) := by
    rw [← hsplit1, ← hsplit2, hdt]
  have hws' : ∀ c ∈ s, (!(wsChar c) || (c = ' ')) = true := by
    have := hws
    simp only [wsIsSpace, List.all_eq_true] at this
    intro c hc
    simpa using this c hc
  have hnl : ∀ c ∈ s, ¬(c = '\n') := by
    intro c hc he
    subst he
    have h2 := hws' '\n' hc
    exact absurd h2 (by decide)
  have hb_eq : b = t.dropWhile g3c := by
    rw [hb]
    apply g4parse_no_newline
    intro c hc
    apply hnl
    rw [hs_eq]
    exact List.mem_append.mpr (Or.inr (List.mem_append.mpr
      (Or.inr (List.mem_append.mpr (Or.inr hc)))))
  have hall_n : ∀ c ∈ n, g1c c = true := by
    rw [hn]
    exact mem_takeWhile_pos g1c s
  have hall_op : ∀ c ∈ op, g2c c = true := by
    rw [hope]
    exact mem_takeWhile_pos g2c _
  have hall_vt : ∀ c ∈ t.takeWhile g3c, g3c c = true := mem_takeWhile_pos g3c t
  have hall_v : ∀ c ∈ v, g3c c = true := by
    rw [hv]
    intro c hc
    rcases List.mem_cons.mp hc with rfl | hc
    · exact digit_g3c _ hd
    · exact hall_vt c hc
  obtain ⟨oh, ot, hopc, hoh⟩ : ∃ oh ot, op = oh :: ot ∧ g1c oh = false := by
    cases hopc : op with
    | nil => exact absurd hopc hop
    | cons oh ot =>
      obtain ⟨t', ht', _⟩ := takeWhile_eq_cons g2c _ oh ot (by rw [← hope, hopc])
      exact ⟨oh, ot, rfl, dropWhile_head_not g1c s oh t' ht'⟩
  have hRhead : ∀ rh rt, t.dropWhile g3c = rh :: rt → g3c rh = false :=
    dropWhile_head_not g3c t
  have assoc1 : n ++ op ++ v ++ ['.', '*'] ++ b
      = n ++ (op ++ (v ++ ('.' :: '*' :: b))) := by
    simp [List.append_assoc]
  have htk1 : (n ++ (op ++ (v ++ ('.' :: '*' :: b)))).takeWhile g1c = n := by
    rw [takeWhile_append_all g1c n _ hall_n, hopc, List.cons_append,
      List.takeWhile_cons_of_neg (by simp [hoh]), List.append_nil]
  have hdr1 : (n ++ (op ++ (v ++ ('.' :: '*' :: b)))).dropWhile g1c
      = op ++ (v ++ ('.' :: '*' :: b)) := by
    rw [dropWhile_append_all g1c n _ hall_n, hopc, List.cons_append,
      List.dropWhile_cons_of_neg (by simp [hoh]), ← List.cons_append]
  have hd2 : g2c d = false := digit_not_g2c d hd
  have htk2 : (op ++ (v ++ ('.' :: '*' :: b))).takeWhile g2c = op := by
    rw [takeWhile_append_all g2c op _ hall_op, hv, List.cons_append,
      List.takeWhile_cons_of_neg (by simp [hd2]), List.append_nil]
  have hdr2 : (op ++ (v ++ ('.' :: '*' :: b))).dropWhile g2c
      = v ++ ('.' :: '*' :: b) := by
    rw [dropWhile_append_all g2c op _ hall_op, hv, List.cons_append,
      List.dropWhile_cons_of_neg (by simp [hd2]), ← List.cons_append]
  have hall_vt2 : ∀ c ∈ t.takeWhile g3c ++ ['.', '*'], g3c c = true := by
    intro c hc
    rcases List.mem_append.mp hc with hc | hc
    · exact hall_vt c hc
    · rcases List.mem_cons.mp hc with rfl | hc
      · decide
      · rcases List.mem_singleton.mp hc with rfl
        decide
  have hshape : t.takeWhile g3c ++ ('.' :: '*' :: b)
      = (t.takeWhile g3c ++ ['.', '*']) ++ b := by
    simp [List.append_assoc]
  have htk3 : (t.takeWhile g3c ++ ('.' :: '*' :: b)).takeWhile g3c
      = t.takeWhile g3c ++ ['.', '*'] := by
    rw [hshape, takeWhile_append_all g3c _ b hall_vt2]
    cases hbc : b with
    | nil => simp
    | cons bh bt =>
      rw [List.takeWhile_cons_of_neg (by
        simp [hRhead bh bt (by rw [← hb_eq, hbc])]), List.append_nil]
  have hdr3 : (t.takeWhile g3c ++ ('.' :: '*' :: b)).dropWhile g3c = b := by
    rw [hshape, dropWhile_append_all g3c _ b hall_vt2]
    cases hbc : b with
    | nil => simp
    | cons bh bt =>
      rw [List.dropWhile_cons_of_neg (by
        simp [hRhead bh bt (by rw [← hb_eq, hbc])])]
  have hg4b : g4parse b = b := by
    apply g4parse_no_newline
    intro c hc
    apply hnl
    rw [hs_eq, ← hb_eq]
    exact List.mem_append.mpr (Or.inr (List.mem_append.mpr
      (Or.inr (List.mem_append.mpr (Or.inr hc)))))
  have hdr2' : (op ++ (v ++ ('.' :: '*' :: b))).dropWhile g2c
      = d :: (t.takeWhile g3c ++ ('.' :: '*' :: b)) := by
    rw [hdr2, hv, List.cons_append]
  have htm : tryMatch (n ++ op ++ v ++ ['.', '*'] ++ b)
      = some (n, op, v ++ ['.', '*'], b) := by
    rw [assoc1]
    unfold tryMatch
    rw [htk1, hdr1, if_neg hnne, hdr2']
    simp only [afterNameAux]
    rw [if_pos hd, htk2, htk3, hdr3, hg4b, hv, List.cons_append]
  have hnws_n : ∀ c ∈ n, wsChar c = false := by
    intro c hc
    cases hwc : wsChar c with
    | false => rfl
    | true =>
      have := ws_not_g1c c hwc
      rw [hall_n c hc] at this
      cases this
  have hnws_v : ∀ c ∈ v, wsChar c = false := by
    intro c hc
    cases hwc : wsChar c with
    | false => rfl
    | true =>
      have := ws_not_g3c c hwc
      rw [hall_v c hc] at this
      cases this
  have hwst : wsIsSpace (n ++ op ++ v ++ ['.', '*'] ++ b) = true := by
    have hws2 := hws
    rw [hs_eq] at hws2
    simp only [wsIsSpace, List.all_append, Bool.and_eq_true] at hws2 ⊢
    refine ⟨⟨⟨⟨hws2.1, hws2.2.1⟩, hws2.2.2.1⟩, by decide⟩, ?_⟩
    rw [hb_eq]
    exact hws2.2.2.2
  have hadj2 : noAdjWs ((n ++ op ++ v) ++ t.dropWhile g3c) = true := by
    have := hadj
    rw [hs_eq] at this
    simpa [List.append_assoc] using this
  obtain ⟨hadjA, hadjR⟩ := noAdjWs_split _ _ hadj2
  have hlastA : ∀ cx, (n ++ op ++ v).getLast? = some cx → wsChar cx = false := by
    intro cx hcx
    rw [List.getLast?_append] at hcx
    rcases hvl : v.getLast? with _ | c0
    · rw [List.getLast?_eq_none_iff] at hvl
      rw [hv] at hvl
      exact (List.cons_ne_nil _ _ hvl).elim
    · rw [hvl] at hcx
      simp only [Option.or_some, Option.some.injEq] at hcx
      subst hcx
      exact hnws_v c0 (getLast?_some_mem v c0 hvl)
  have hadjdots : noAdjWs ('.' :: '*' :: b) = true := by
    refine noAdjWs_cons_head '.' ('*' :: b) ?_ ?_
    · refine noAdjWs_cons_head '*' b ?_ ?_
      · rw [← hb_eq] at hadjR
        exact hadjR
      · intro d0 t0 _
        exact Or.inl (by decide)
    · intro d0 t0 _
      exact Or.inl (by decide)
  have hadjt : noAdjWs (n ++ op ++ v ++ ['.', '*'] ++ b) = true := by
    have hjoin := noAdjWs_join_last_not_ws (n ++ op ++ v) ('.' :: '*' :: b)
      hadjA hadjdots hlastA
    have hre : (n ++ op ++ v) ++ ('.' :: '*' :: b)
        = n ++ op ++ v ++ ['.', '*'] ++ b := by
      simp [List.append_assoc]
    rw [hre] at hjoin
    exact hjoin
  exact ⟨collapseAux_fix _ hwst hadjt, htm⟩

/-- C10: `generalize_version` is idempotent — a wildcard suffix already
appended is never appended again, and an unmodified result stays
unmodified, so a second application returns its input unchanged. -/
theorem generalize_version_idem (s : List Char) :
    generalize_version (generalize_version s) = generalize_version s := by
  rcases h : tryMatch (collapse s) with _ | ⟨n, op, v, b⟩
  · have h1 : generalize_version s = collapse s := by
      simp only [generalize_version]
      rw [h, genVerAux]
    rw [h1]
    simp only [generalize_version]
    rw [collapse_idem, h, genVerAux]
  · by_cases hc1 : (v.length > 0 && op.length > 0) = true
    · by_cases hc2 : (!(endsDotStar v) && lastIsDigit v &&
          (stripWs op = ['=', '='] || stripWs op = [' ']
            || stripWs op = [])) = true
      · have h1 : generalize_version s = n ++ op ++ v ++ ['.', '*'] ++ b := by
          simp only [generalize_version]
          rw [h, genVerAux, if_pos hc1, if_pos hc2]
        have hop : op ≠ [] := by
          intro he
          rw [he] at hc1
          simp at hc1
        obtain ⟨hfix, htm⟩ := append_case_roundtrip (collapse s) n op v b
          (collapse_idem s) h hop
        rw [h1]
        simp only [generalize_version]
        rw [hfix, htm, genVerAux]
        have hopl : op.length > 0 := by
          cases op with
          | nil => exact absurd rfl hop
          | cons c cs => simp
        have hcl : ((v ++ ['.', '*']).length > 0 && op.length > 0) = true := by
          simp [List.length_append, hopl]
        rw [if_pos hcl]
        have hends : endsDotStar (v ++ ['.', '*']) = true := by
          simp [endsDotStar, List.reverse_append]
        have hc2' : (!(endsDotStar (v ++ ['.', '*']))
            && lastIsDigit (v ++ ['.', '*'])
            && (stripWs op = ['=', '='] || stripWs op = [' ']
              || stripWs op = [])) = false := by
          rw [hends]
          simp
        rw [hc2']
        rfl
      · have h1 : generalize_version s = collapse s := by
          simp only [generalize_version]
          rw [h, genVerAux, if_pos hc1]
          rw [Bool.eq_false_iff.mpr hc2]
          rfl
        rw [h1]
        simp only [generalize_version]
        rw [collapse_idem, h, genVerAux, if_pos hc1,
          Bool.eq_false_iff.mpr hc2]
        rfl
    · have h1 : generalize_version s = collapse s := by
        simp only [generalize_version]
        rw [h, genVerAux, if_neg hc1]
      rw [h1]
      simp only [generalize_version]
      rw [collapse_idem, h, genVerAux, if_neg hc1]

end OpenCE
